import Mathlib

/-!
Shallow embedding of the core pipeline of the `blink` file manager:

* directory scanner            — `src/core/scanner.rs`
* recursive filename search    — `src/core/search.rs`
* file operations and progress — `src/core/file_ops.rs`
* clipboard                    — `src/core/clipboard.rs`
* paste orchestrator worker    — `src/window.rs` (`connect_paste`)
* directory load controller and drag-drop workers — `src/widgets/file_view.rs`

Filesystem paths are modelled as lists of components; filesystem I/O is made
explicit (directory listings, metadata results and rename outcomes are inputs
to the modelled functions; errors are `Except` values).
-/

/-- A filesystem path, as its list of components. -/
abbrev FsPath := List String

/-- An I/O error, identified by its message. -/
abbrev IoErr := String

/-- Decidable equality for `Except`, used to evaluate the models on concrete
inputs. -/
instance exceptDecEq {ε α : Type} [DecidableEq ε] [DecidableEq α] :
    DecidableEq (Except ε α) := fun x y =>
  match x, y with
  | .error a, .error b =>
    if h : a = b then isTrue (congrArg Except.error h)
    else isFalse (fun hh => h (by injection hh))
  | .error _, .ok _ => isFalse (fun hh => Except.noConfusion hh)
  | .ok _, .error _ => isFalse (fun hh => Except.noConfusion hh)
  | .ok a, .ok b =>
    if h : a = b then isTrue (congrArg Except.ok h)
    else isFalse (fun hh => h (by injection hh))

/-! ## Scanner (`src/core/scanner.rs`) -/

/-- Result of a successful `entry.metadata()` call.  `modified = none` models a
failing `metadata.modified()` read (the scanner then displays `"Unknown"`). -/
structure RawMeta where
  isDir : Bool
  len : Nat
  modified : Option String
deriving DecidableEq

/-- One item yielded by `fs::read_dir`: the entry's name together with the
outcome of its `metadata()` call. -/
structure RawEntry where
  name : String
  meta : Except IoErr RawMeta
deriving DecidableEq

/-- `FileEntry` from `scanner.rs`. -/
structure FileEntry where
  name : String
  path : FsPath
  isDirectory : Bool
  size : Nat
  modified : String
  iconName : String
deriving DecidableEq

/-- Lowercasing (`str::to_lowercase`), written over the character list so that
it evaluates by kernel reduction. -/
def lowerStr (s : String) : String := String.mk (s.data.map Char.toLower)

/-- Split a name at its last `.`: `splitLastDot cs = some (before, after)` when
`cs` contains a dot, `none` otherwise. -/
def splitLastDot : List Char → Option (List Char × List Char)
  | [] => none
  | c :: cs =>
    match splitLastDot cs with
    | some (b, a) => some (c :: b, a)
    | none => if c = '.' then some ([], cs) else none

/-- `name.starts_with('.')`. -/
def startsWithDot (s : String) : Bool :=
  match s.data with
  | [] => false
  | c :: _ => c = '.'

/-- `Path::file_stem` of a single file name: the part before the last dot,
or the whole name when there is no dot or the dot is the leading character. -/
def fileStem (name : String) : String :=
  match splitLastDot name.data with
  | some (b, _) => if b = [] then name else String.mk b
  | none => name

/-- `Path::extension` of a single file name. -/
def extensionOf (name : String) : Option String :=
  match splitLastDot name.data with
  | some (b, a) => if b = [] then none else some (String.mk a)
  | none => none

/-- `Scanner::get_icon_name`: the extension is everything after the last `.`
(`name.rsplit('.').next()`), lowercased, then matched against a fixed table. -/
def iconForScan (name : String) (isDir : Bool) : String :=
  if isDir then "folder" else
  let ext := lowerStr (match splitLastDot name.data with
    | some (_, a) => String.mk a
    | none => name)
  if ext ∈ ["pdf"] then "application-pdf"
  else if ext ∈ ["doc", "docx", "odt"] then "x-office-document"
  else if ext ∈ ["xls", "xlsx", "ods"] then "x-office-spreadsheet"
  else if ext ∈ ["ppt", "pptx", "odp"] then "x-office-presentation"
  else if ext ∈ ["txt", "md", "rst"] then "text-x-generic"
  else if ext ∈ ["png", "jpg", "jpeg", "gif", "bmp", "svg", "webp"] then "image-x-generic"
  else if ext ∈ ["mp3", "wav", "flac", "ogg", "m4a"] then "audio-x-generic"
  else if ext ∈ ["mp4", "mkv", "avi", "mov", "webm"] then "video-x-generic"
  else if ext ∈ ["zip", "tar", "gz", "bz2", "xz", "rar", "7z"] then "package-x-generic"
  else if ext ∈ ["rs", "py", "js", "ts", "c", "cpp", "h", "java", "go", "rb"] then "text-x-script"
  else if ext ∈ ["html", "css", "xml", "json", "yaml", "yml", "toml"] then "text-x-script"
  else if ext ∈ ["sh", "bash"] then "application-x-executable"
  else if ext ∈ ["exe", "msi"] then "application-x-executable"
  else if ext ∈ ["deb", "rpm", "AppImage"] then "application-x-executable"
  else "text-x-generic"

/-- Construction of one `FileEntry` from a raw entry (body of the scan loop). -/
def mkFileEntry (parent : FsPath) (name : String) (m : RawMeta) : FileEntry :=
  { name := name
    path := parent ++ [name]
    isDirectory := m.isDir
    size := if m.isDir then 0 else m.len
    modified := m.modified.getD "Unknown"
    iconName := iconForScan name m.isDir }

/-- The entry-collection loop of `Scanner::scan_with_hidden`: each item of the
`read_dir` iterator may itself be an error (`let entry = entry?`), and a
metadata error (`entry.metadata()?`) propagates; the hidden-name check comes
after the metadata read.  Any error aborts the whole collection. -/
def collectEntries (parent : FsPath) (showHidden : Bool) :
    List (Except IoErr RawEntry) → Except IoErr (List FileEntry)
  | [] => .ok []
  | .error e :: _ => .error e
  | .ok ent :: rest =>
    match ent.meta with
    | .error e => .error e
    | .ok m =>
      if !showHidden && startsWithDot ent.name then
        collectEntries parent showHidden rest
      else
        match collectEntries parent showHidden rest with
        | .error e => .error e
        | .ok l => .ok (mkFileEntry parent ent.name m :: l)

/-- Boolean lexicographic order on character lists, comparing codepoints
(embeds Rust's `String` ordering for the sort key). -/
def lexLe : List Char → List Char → Bool
  | [], _ => true
  | _ :: _, [] => false
  | a :: as, b :: bs =>
    if a.toNat = b.toNat then lexLe as bs else decide (a.toNat < b.toNat)

/-- First component of the sort key `(!e.is_directory, e.name.to_lowercase())`:
directories rank `0`, files rank `1`. -/
def groupRank (e : FileEntry) : Nat := if e.isDirectory then 0 else 1

/-- The scanner's sort relation: lexicographic on
`(!is_directory, name.to_lowercase())`. -/
def entryLE (a b : FileEntry) : Bool :=
  if groupRank a = groupRank b then lexLe (lowerStr a.name).data (lowerStr b.name).data
  else decide (groupRank a < groupRank b)

/-- `entryLE` as a decidable relation, for the stable sort
(`entries.sort_by_cached_key` is a stable sort by this key). -/
def entryRel (a b : FileEntry) : Prop := entryLE a b = true

instance : DecidableRel entryRel :=
  fun a b => inferInstanceAs (Decidable (entryLE a b = true))

/-- `Scanner::scan_with_hidden`: the directory listing itself may fail
(`fs::read_dir(path)?`); otherwise the entries are collected and sorted. -/
def scanWithHidden (parent : FsPath) (showHidden : Bool)
    (listing : Except IoErr (List (Except IoErr RawEntry))) :
    Except IoErr (List FileEntry) :=
  match listing with
  | .error e => .error e
  | .ok items =>
    match collectEntries parent showHidden items with
    | .error e => .error e
    | .ok entries => .ok (List.insertionSort entryRel entries)

/-- An item of a directory listing that makes the scan abort: the item itself
is an error, or its metadata read failed. -/
def badItem (it : Except IoErr RawEntry) : Bool :=
  match it with
  | .error _ => true
  | .ok ent =>
    match ent.meta with
    | .error _ => true
    | .ok _ => false

/-- Concrete directory listing from §8.1 of the specification:
`b.txt`, `A` (directory), `a.txt`, `B` (directory). -/
def demoListing : List (Except IoErr RawEntry) :=
  [.ok ⟨"b.txt", .ok ⟨false, 3, some "2024-01-01 00:00"⟩⟩,
   .ok ⟨"A", .ok ⟨true, 0, some "2024-01-01 00:00"⟩⟩,
   .ok ⟨"a.txt", .ok ⟨false, 4, some "2024-01-01 00:00"⟩⟩,
   .ok ⟨"B", .ok ⟨true, 0, some "2024-01-01 00:00"⟩⟩]

/-- The scan of `demoListing`: directories `A`, `B` first, then the files in
case-insensitive name order. -/
def demoSorted : List FileEntry :=
  [⟨"A", ["A"], true, 0, "2024-01-01 00:00", "folder"⟩,
   ⟨"B", ["B"], true, 0, "2024-01-01 00:00", "folder"⟩,
   ⟨"a.txt", ["a.txt"], false, 4, "2024-01-01 00:00", "text-x-generic"⟩,
   ⟨"b.txt", ["b.txt"], false, 3, "2024-01-01 00:00", "text-x-generic"⟩]

/-! ## Search engine (`src/core/search.rs`) -/

/-- A directory tree: what the recursive search walks.  A node carries the
entry's name; directories carry their `read_dir` listing. -/
inductive FsTree where
  | file (name : String)
  | dir (name : String) (children : List FsTree)

/-- The entry's `file_name()`. -/
def FsTree.name : FsTree → String
  | .file n => n
  | .dir n _ => n

/-- The state shared by the search worker: accumulated matches (the modelled
`results` vector stores the matched names) and the match counter `count`. -/
structure SearchState where
  results : List String
  count : Nat
deriving DecidableEq

/-- The fixed pseudo-filesystem prefixes skipped by `search_recursive`. -/
def skipDirs : List FsPath :=
  [["proc"], ["sys"], ["dev"], ["run"], ["tmp"], ["var", "cache"],
   ["var", "tmp"], ["snap"], [".snapshots"]]

/-- Substring containment (`str::contains`) over character lists. -/
def containsSeq : List Char → List Char → Bool
  | [], needle => needle.isEmpty
  | h :: t, needle => needle.isPrefixOf (h :: t) || containsSeq t needle

/-- The match-and-accumulate step of the entry loop:
`if file_name.to_lowercase().contains(query) { results.push(..); count += 1 }`
(the query is already lowercased by `search`). -/
def matchStep (q name : String) (st : SearchState) : SearchState :=
  if containsSeq (lowerStr name).data q.data then
    { results := st.results ++ [name], count := st.count + 1 }
  else st

/-- The `for entry in entries` loop of `GlobalSearch::search_recursive`.
The `is_searching` cancellation flag is modelled as never flipped (no
concurrent `search`/`cancel` during the run) and all `read_dir`/`metadata`
calls succeed.  The two bound checks at the top of `search_recursive` are
inlined at each recursive descent (and at the root call, in `searchRun`);
the hidden-name filter precedes the match, and the `skip_dirs` prefix check
guards the descent into a subdirectory. -/
def searchEntries (q : String) (showHidden : Bool) (path : FsPath)
    (l : List FsTree) (st : SearchState) : SearchState :=
  match l with
  | [] => st
  | t :: rest =>
    if !showHidden && startsWithDot t.name then
      searchEntries q showHidden path rest st
    else
      let st1 := matchStep q t.name st
      let st2 := match t with
        | .file _ => st1
        | .dir nm children =>
          if skipDirs.any (fun d => d.isPrefixOf (path ++ [nm])) then st1
          else if st1.count > 5000 then st1
          else if st1.results.length > 5000 then st1
          else searchEntries q showHidden (path ++ [nm]) children st1
      searchEntries q showHidden path rest st2
termination_by sizeOf l
decreasing_by
  all_goals simp
  all_goals omega

/-- `GlobalSearch::search` dispatching `search_recursive` on the root
directory: entry guards of `search_recursive` for the root call, then the
entry loop, starting from cleared results and a zero counter. -/
def searchRun (q : String) (showHidden : Bool) (root : FsPath)
    (children : List FsTree) : SearchState :=
  let st0 : SearchState := ⟨[], 0⟩
  if st0.count > 5000 then st0
  else if st0.results.length > 5000 then st0
  else searchEntries q showHidden root children st0

/-- Total number of tree nodes, bounding how much the search can accumulate. -/
def nodeCount : List FsTree → Nat
  | [] => 0
  | .file _ :: rest => 1 + nodeCount rest
  | .dir _ cs :: rest => 1 + nodeCount cs + nodeCount rest

/-! ## Collision-avoidance naming (`Clipboard::paste`, `connect_drop`) -/

/-- Decimal digits of `n`, most significant first, with explicit fuel so the
definition is structural (the fuel `n + 1` always suffices). -/
def natDigitsAux : Nat → Nat → List Nat
  | 0, _ => []
  | fuel + 1, n => if n < 10 then [n] else natDigitsAux fuel (n / 10) ++ [n % 10]

/-- Decimal digits of `n`, most significant first. -/
def natDigits (n : Nat) : List Nat := natDigitsAux (n + 1) n

/-- The numeric value denoted by a digit list (used to show `natDigits` is
injective). -/
def digitsVal (l : List Nat) : Nat := l.foldl (fun a d => a * 10 + d) 0

/-- One decimal digit as a character. -/
def digitChar : Nat → Char
  | 0 => '0' | 1 => '1' | 2 => '2' | 3 => '3' | 4 => '4'
  | 5 => '5' | 6 => '6' | 7 => '7' | 8 => '8' | 9 => '9'
  | _ => '*'

/-- Decimal rendering of a counter (`format!("{}", counter)`). -/
def natStr (n : Nat) : String := String.mk ((natDigits n).map digitChar)

/-- `format!("{} ({}){}", stem, counter, extension)` — the synthesized conflict
name; `ext` already carries its leading dot. -/
def mkConflictName (stem ext : String) (n : Nat) : String :=
  stem ++ " (" ++ natStr n ++ ")" ++ ext

/-- The extension part used by the naming loops:
`source.extension().map(|e| format!(".{}", e)).unwrap_or_default()`. -/
def extWithDot (name : String) : String :=
  match extensionOf name with
  | some e => "." ++ e
  | none => ""

/-- The `while dest_path.exists()` body, counting up from `counter`; the fuel
argument makes the recursion structural (with `existing.length + 1` candidates
a free one always exists, so the fuel is never exhausted). -/
def renameLoop (stem ext : String) (existing : List String) : Nat → Nat → String
  | 0, n => mkConflictName stem ext n
  | fuel + 1, n =>
    let cand := mkConflictName stem ext n
    if cand ∈ existing then renameLoop stem ext existing fuel (n + 1) else cand

/-- Destination-name resolution shared verbatim by `Clipboard::paste`
(src/core/clipboard.rs, lines 49–64) and both `connect_drop` workers
(src/widgets/file_view.rs): the first candidate is the source's file name;
while the candidate exists in the destination directory,
`"{stem} ({n}){.ext}"` is tried for `n = 1, 2, …`.  `existing` is the set of
names present in the destination directory. -/
def resolveName (existing : List String) (name : String) : String :=
  if name ∈ existing then
    renameLoop (fileStem name) (extWithDot name) existing (existing.length + 1) 1
  else name

/-! ## Directory load controller (`FileView::load_directory`) -/

/-- An event at the load controller: a `load_directory` call, or the arrival
on the UI thread of the result of the scan that was dispatched with captured
generation `g` (`scan_id`). -/
inductive LoadEvent where
  | load
  | complete (g : Nat) (result : Except IoErr (List FileEntry))

/-- Controller state: the current scan generation (`current_scan_id`) and the
view contents (the `store`; `load_directory` clears it, an applied result
appends its entries). -/
structure LoadCtl where
  gen : Nat
  view : List FileEntry

/-- Initial controller state. -/
def loadInit : LoadCtl := ⟨0, []⟩

/-- One controller step.  `load`: clear the store and increment the
generation (the spawned scan captures the new value as its tag).
`complete g r`: apply the result to the view iff the captured generation `g`
still equals the current one; an error result is only logged; a stale result
is discarded silently.  The second component lists the generation applied by
the step, if any. -/
def loadStep (s : LoadCtl) : LoadEvent → LoadCtl × List Nat
  | .load => ({ gen := s.gen + 1, view := [] }, [])
  | .complete g r =>
    if g = s.gen then
      match r with
      | .ok entries => ({ s with view := s.view ++ entries }, [g])
      | .error _ => (s, [])
    else (s, [])

/-- Run of the controller over a trace of events: final state plus the
generation tags whose results were applied, in order. -/
def loadRun (s : LoadCtl) : List LoadEvent → LoadCtl × List Nat
  | [] => (s, [])
  | e :: rest =>
    let s1 := loadStep s e
    let s2 := loadRun s1.1 rest
    (s2.1, s1.2 ++ s2.2)

/-- Number of `load_directory` calls in a trace. -/
def countLoads : List LoadEvent → Nat
  | [] => 0
  | .load :: rest => countLoads rest + 1
  | .complete _ _ :: rest => countLoads rest

/-- Number of successful scan completions carrying tag `g` in a trace. -/
def countCompletes (g : Nat) : List LoadEvent → Nat
  | [] => 0
  | .load :: rest => countCompletes g rest
  | .complete g2 r :: rest =>
    (match r with
      | .ok _ => if g2 = g then 1 else 0
      | .error _ => 0) + countCompletes g rest

/-! ## File-operation engine (`src/core/file_ops.rs`) -/

/-- A filesystem node: a regular file with its byte size, or a directory with
its named children (`read_dir` listing order). -/
inductive FNode where
  | file (size : Nat)
  | dir (children : List (String × FNode))

/-- `ProgressInfo` from `file_ops.rs`. -/
structure ProgressInfo where
  currentFile : String
  bytesCopied : Nat
  totalBytes : Nat
  filesCopied : Nat
  totalFiles : Nat
deriving DecidableEq

/-- One update of the shared `ProgressInfo`, performed under the lock:
a 64 KiB-chunk write of `copy_single_file_with_progress` (which also sets
`current_file` when it is still empty), the per-file count increment, the
`current_file` assignment of the directory-copy loop, or the instantaneous
fast-path update of `move_file_with_progress` (`files_copied += 1`, plus the
whole size when the post-rename `source.is_file()` stat reports a file). -/
inductive ProgressUpdate where
  | chunk (bytesRead : Nat) (sourceName : String)
  | fileDone
  | setCurrent (name : String)
  | renameDone (srcIsFile : Bool) (srcSize : Nat)
deriving DecidableEq

/-- Apply one locked update to the shared progress cell. -/
def applyUpdate (p : ProgressInfo) : ProgressUpdate → ProgressInfo
  | .chunk k name =>
    let p1 := { p with bytesCopied := p.bytesCopied + k }
    if p1.currentFile = "" then { p1 with currentFile := name } else p1
  | .fileDone => { p with filesCopied := p.filesCopied + 1 }
  | .setCurrent name => { p with currentFile := name }
  | .renameDone isF size =>
    let p1 := { p with filesCopied := p.filesCopied + 1 }
    if isF then { p1 with bytesCopied := p1.bytesCopied + size } else p1

/-- Apply a sequence of updates in order. -/
def applyUpdates (p : ProgressInfo) (us : List ProgressUpdate) : ProgressInfo :=
  us.foldl applyUpdate p

/-- Read sizes of the 64 KiB-buffer loop for a file of `n` bytes; explicit
fuel (`n` suffices: every iteration consumes at least one byte). -/
def chunkSizesAux : Nat → Nat → List Nat
  | 0, _ => []
  | fuel + 1, n => if n = 0 then [] else min 65536 n :: chunkSizesAux fuel (n - min 65536 n)

/-- Chunk sizes read while copying a file of `n` bytes. -/
def chunkSizes (n : Nat) : List Nat := chunkSizesAux n n

/-- Progress updates of `copy_single_file_with_progress` on a file named
`name` with `size` bytes: one bytes update per chunk, then the file-count
increment (also for zero-byte files). -/
def copySingleTrace (name : String) (size : Nat) : List ProgressUpdate :=
  (chunkSizes size).map (fun k => .chunk k name) ++ [.fileDone]

/-- Progress updates of `copy_dir_recursive_with_progress` over a `read_dir`
listing: subdirectories recurse; files first get `current_file` set, then the
chunked single-file copy. -/
def copyDirTrace : List (String × FNode) → List ProgressUpdate
  | [] => []
  | (nm, .file size) :: rest =>
    .setCurrent nm :: (copySingleTrace nm size ++ copyDirTrace rest)
  | (_, .dir cs) :: rest => copyDirTrace cs ++ copyDirTrace rest
termination_by l => sizeOf l
decreasing_by
  all_goals simp
  all_goals omega

/-- Progress updates of `copy_file_with_progress` on a source named `name`:
directory sources use the recursive directory copy, file sources the chunked
single-file copy. -/
def copyTrace (name : String) : FNode → List ProgressUpdate
  | .file size => copySingleTrace name size
  | .dir cs => copyDirTrace cs

/-- `FileOperations::calculate_size_recursive`: total bytes and file count of
a node — files add their size and one to the count, directories recurse over
their entries (the entry loop is encoded as recursion on the remaining
listing). -/
def calcSizeRec : FNode → Nat × Nat
  | .file size => (size, 1)
  | .dir [] => (0, 0)
  | .dir ((_, nd) :: rest) =>
    let a := calcSizeRec nd
    let b := calcSizeRec (.dir rest)
    (a.1 + b.1, a.2 + b.2)
termination_by nd => sizeOf nd
decreasing_by
  all_goals simp
  all_goals omega

/-- `FileOperations::calculate_total_size` over the pasted source nodes. -/
def calcTotal : List (String × FNode) → Nat × Nat
  | [] => (0, 0)
  | (_, nd) :: rest =>
    let a := calcSizeRec nd
    let b := calcTotal rest
    (a.1 + b.1, a.2 + b.2)

/-- The `ProgressInfo` created by `connect_paste` before handing off to the
worker: totals computed up front by `calculate_total_size`, counters zero. -/
def initProgress (srcs : List (String × FNode)) : ProgressInfo :=
  { currentFile := ""
    bytesCopied := 0
    totalBytes := (calcTotal srcs).1
    filesCopied := 0
    totalFiles := (calcTotal srcs).2 }

/-- Progress updates of a Copy-mode paste transferring the listed source
nodes in order: the worker invokes `copy_file_with_progress` once per path
(conflict resolution only changes destination names and performs no progress
update). -/
def pasteCopyTrace : List (String × FNode) → List ProgressUpdate
  | [] => []
  | (nm, nd) :: rest => copyTrace nm nd ++ pasteCopyTrace rest

/-- A flat filesystem for the move model: paths bound to nodes. -/
abbrev FlatFs := List (FsPath × FNode)

/-- Look up a path. -/
def fsLookup : FlatFs → FsPath → Option FNode
  | [], _ => none
  | (q, nd) :: rest, p => if q = p then some nd else fsLookup rest p

/-- `Path::is_file`. -/
def fsIsFile (fs : FlatFs) (p : FsPath) : Bool :=
  match fsLookup fs p with
  | some (.file _) => true
  | _ => false

/-- `metadata().len()` for a file path. -/
def fsFileSize (fs : FlatFs) (p : FsPath) : Option Nat :=
  match fsLookup fs p with
  | some (.file n) => some n
  | _ => none

/-- Remove a path binding. -/
def fsRemove (fs : FlatFs) (p : FsPath) : FlatFs :=
  fs.filter (fun e => e.1 != p)

/-- `fs::rename` on the flat filesystem: move the binding of `src` to `dst`. -/
def fsRename (fs : FlatFs) (src dst : FsPath) : FlatFs :=
  match fsLookup fs src with
  | some nd => (dst, nd) :: fsRemove fs src
  | none => fs

/-- `FileOperations::move_file_with_progress`.  `renameOk` is the outcome of
the `fs::rename` attempt (same-filesystem fast path).  On success the code
updates progress instantaneously: `files_copied += 1`, and `bytes_copied`
grows by the file size only if `source.is_file()` — a stat of the *source*
path issued after the rename has already moved it away, hence evaluated
against the post-rename filesystem.  On failure the chunked
`copy_file_with_progress` runs and the source is then removed. -/
def moveFileWithProgress (fs : FlatFs) (src dst : FsPath) (srcName : String)
    (renameOk : Bool) : FlatFs × List ProgressUpdate :=
  if renameOk then
    let fs1 := fsRename fs src dst
    (fs1, [.renameDone (fsIsFile fs1 src) ((fsFileSize fs1 src).getD 0)])
  else
    match fsLookup fs src with
    | some nd => ((dst, nd) :: fsRemove fs src, copyTrace srcName nd)
    | none => (fs, [])

/-! ## Clipboard (`src/core/clipboard.rs`) -/

/-- `ClipboardMode`. -/
inductive ClipboardMode where
  | none
  | copy
  | cut
deriving DecidableEq

/-- `Clipboard`: an ordered path list and a mode. -/
structure Clipboard where
  paths : List FsPath
  mode : ClipboardMode
deriving DecidableEq

/-- `Clipboard::copy`. -/
def clipCopy (_c : Clipboard) (paths : List FsPath) : Clipboard :=
  { paths := paths, mode := .copy }

/-- `Clipboard::cut`. -/
def clipCut (_c : Clipboard) (paths : List FsPath) : Clipboard :=
  { paths := paths, mode := .cut }

/-- `Clipboard::clear`. -/
def clipClear (_c : Clipboard) : Clipboard := { paths := [], mode := .none }

/-- The per-path loop of `Clipboard::paste`: a source without a file name
aborts the paste with `"Invalid file name"`; otherwise the autorename rule
(`resolveName`) picks the destination name and the copy/move places it in the
destination directory.  `names` is the destination directory's contents;
transfers are modelled as succeeding (claims about I/O failure are out of this
model's scope). -/
def clipPasteLoop (mode : ClipboardMode) :
    List FsPath → List String → Except String (List String)
  | [], names => .ok names
  | src :: rest, names =>
    match src.getLast? with
    | none => .error "Invalid file name"
    | some fn =>
      let destName := resolveName names fn
      let names2 := match mode with
        | .copy => names ++ [destName]
        | .cut => names ++ [destName]
        | .none => names
      clipPasteLoop mode rest names2

/-- `Clipboard::paste` into a destination directory with contents
`destNames`: no-op when the mode is `None` or the path list is empty;
otherwise the per-path loop runs, and only after every path succeeded is the
clipboard cleared — and only in `Cut` mode. -/
def clipPaste (c : Clipboard) (destNames : List String) :
    Except String (Clipboard × List String) :=
  if c.mode = .none ∨ c.paths = [] then .ok (c, destNames)
  else
    match clipPasteLoop c.mode c.paths destNames with
    | .error e => .error e
    | .ok names2 =>
      if c.mode = .cut then .ok ({ paths := [], mode := .none }, names2)
      else .ok (c, names2)

/-! ## Paste orchestrator worker (`src/window.rs`, `connect_paste`) -/

/-- `ConflictResolution` sent from the UI to the worker. -/
inductive ConflictResolution where
  | replace
  | rename (newName : String)
  | cancel
deriving DecidableEq

/-- `PasteEvent` sent from the worker to the UI. -/
inductive PasteEvent where
  | conflict (path : FsPath)
  | finished (mode : ClipboardMode)
deriving DecidableEq

/-- The conflict-resolution loop for one file of the worker: while the
candidate destination exists, emit `Conflict` and block on the resolution
channel.  The pending responses are the list `res`; an exhausted list models
a closed channel (`Err(_) `), which the worker treats like `Cancel`.
Returns the emitted events, the unconsumed responses, and the destination to
transfer to (`none`: the paste is cancelled).  `fs` is the set of existing
paths consulted by `dest_path.exists()`. -/
def resolveConflicts (dest : FsPath) (fs : List FsPath) :
    FsPath → List ConflictResolution →
    List PasteEvent × List ConflictResolution × Option FsPath
  | dp, res =>
    if dp ∈ fs then
      match res with
      | [] => ([.conflict dp], [], none)
      | .replace :: rest => ([.conflict dp], rest, some dp)
      | .rename newName :: rest =>
        let r := resolveConflicts dest fs (dest ++ [newName]) rest
        (.conflict dp :: r.1, r.2)
      | .cancel :: rest => ([.conflict dp], rest, none)
    else ([], res, some dp)

/-- Existence effect of one transferred path: a Copy creates the destination
path, a Cut additionally removes the source; `ClipboardMode::None` performs
no transfer (unreachable through `connect_paste`, which returns early). -/
def applyTransfer (mode : ClipboardMode) (src dp : FsPath)
    (fs : List FsPath) : List FsPath :=
  match mode with
  | .copy => dp :: fs
  | .cut => dp :: fs.filter (fun p => p != src)
  | .none => fs

/-- The worker-thread loop of `connect_paste`: per source path, a source
without a file name is skipped (`continue`); otherwise conflicts are resolved;
on cancellation the worker emits `Finished` and returns, leaving the remaining
paths untransferred; otherwise the transfer runs (I/O errors are logged and do
not abort) and the loop continues.  After the last path one `Finished` is
emitted.  Returns the event trace and the performed transfers
(source, destination). -/
def workerRun (mode : ClipboardMode) (dest : FsPath) :
    List FsPath → List FsPath → List ConflictResolution →
    List PasteEvent × List (FsPath × FsPath)
  | [], _, _ => ([.finished mode], [])
  | src :: rest, fs, res =>
    match src.getLast? with
    | none => workerRun mode dest rest fs res
    | some name =>
      let r := resolveConflicts dest fs (dest ++ [name]) res
      match r.2.2 with
      | none => (r.1 ++ [.finished mode], [])
      | some dp =>
        let w := workerRun mode dest rest (applyTransfer mode src dp fs) r.2.1
        (r.1 ++ w.1, (src, dp) :: w.2)

/-- Filesystem and response-channel state after the worker has processed the
given paths without a cancellation (`none` when that prefix cancels). -/
def workerState (mode : ClipboardMode) (dest : FsPath) :
    List FsPath → List FsPath → List ConflictResolution →
    Option (List FsPath × List ConflictResolution)
  | [], fs, res => some (fs, res)
  | src :: rest, fs, res =>
    match src.getLast? with
    | none => workerState mode dest rest fs res
    | some name =>
      let r := resolveConflicts dest fs (dest ++ [name]) res
      match r.2.2 with
      | none => none
      | some dp => workerState mode dest rest (applyTransfer mode src dp fs) r.2.1

/-- Number of `Finished` events in a trace. -/
def countFinished (evs : List PasteEvent) : Nat :=
  evs.countP (fun e => match e with | .finished _ => true | _ => false)

/-! ## Drag-drop workers (`src/widgets/file_view.rs`, `connect_drop`) -/

/-- Whether a dropped path is processed: it must have a file name and must not
already be at its would-be destination (`source_file == dest_path` skips). -/
def dropProcessed (destDir : FsPath) (f : FsPath) : Bool :=
  match f.getLast? with
  | none => false
  | some fn => f != destDir ++ [fn]

/-- The worker loop shared (verbatim) by the grid-view and list-view
`connect_drop` handlers: per dropped file, skip when there is no file name or
the file is dropped into the directory it already lives in; otherwise pick a
destination name with the autorename rule and copy.  `names` is the
destination directory's contents; a performed copy adds its resolved name.
Returns the performed copies (source, resolved name) and the final
contents. -/
def dropWorker (destDir : FsPath) :
    List FsPath → List String → List (FsPath × String) × List String
  | [], names => ([], names)
  | f :: rest, names =>
    match f.getLast? with
    | none => dropWorker destDir rest names
    | some fn =>
      if f = destDir ++ [fn] then dropWorker destDir rest names
      else
        let newName := resolveName names fn
        let r := dropWorker destDir rest (names ++ [newName])
        ((f, newName) :: r.1, r.2)

/-- Number of file-count increments (`files_copied += 1`) in an update list:
per-file completions of the chunked copy and fast-path rename updates. -/
def countIncr (us : List ProgressUpdate) : Nat :=
  us.countP (fun u => match u with
    | .fileDone => true
    | .renameDone _ _ => true
    | _ => false)

/-! ## Theorems: scanner ordering (C5) and error propagation (C9) -/

theorem lexLe_total (a b : List Char) : lexLe a b = true ∨ lexLe b a = true := by
  induction a generalizing b with
  | nil => left; rfl
  | cons x xs ih =>
    cases b with
    | nil => right; rfl
    | cons y ys =>
      by_cases h : x.toNat = y.toNat
      · simp only [lexLe, h, if_pos, if_true]
        have := ih ys
        rcases this with h1 | h1
        · left; simpa [lexLe, h] using h1
        · right; simpa [lexLe, h.symm] using h1
      · rcases Nat.lt_or_ge x.toNat y.toNat with hlt | hge
        · left; simp [lexLe, h, hlt]
        · right
          have hlt : y.toNat < x.toNat := lt_of_le_of_ne hge (fun hh => h hh.symm)
          have hne : y.toNat ≠ x.toNat := Nat.ne_of_lt hlt
          simp [lexLe, hne, hlt]

theorem lexLe_trans (a b c : List Char) (h1 : lexLe a b = true) (h2 : lexLe b c = true) :
    lexLe a c = true := by
  induction a generalizing b c with
  | nil => rfl
  | cons x xs ih =>
    cases b with
    | nil => simp [lexLe] at h1
    | cons y ys =>
      cases c with
      | nil => simp [lexLe] at h2
      | cons z zs =>
        by_cases hxy : x.toNat = y.toNat
        · by_cases hyz : y.toNat = z.toNat
          · have hxz : x.toNat = z.toNat := hxy.trans hyz
            simp only [lexLe, hxy, if_true, if_pos] at h1
            simp only [lexLe, hyz, if_true, if_pos] at h2
            simp only [lexLe, hxz, if_true, if_pos]
            exact ih ys zs h1 h2
          · simp only [lexLe, hyz, if_neg, if_false] at h2
            have hlt : y.toNat < z.toNat := by simpa using h2
            have hxz : x.toNat < z.toNat := hxy ▸ hlt
            have hne : x.toNat ≠ z.toNat := Nat.ne_of_lt hxz
            simp [lexLe, hne, hxz]
        · simp only [lexLe, hxy, if_neg, if_false] at h1
          have hlt1 : x.toNat < y.toNat := by simpa using h1
          by_cases hyz : y.toNat = z.toNat
          · have hxz : x.toNat < z.toNat := hyz ▸ hlt1
            have hne : x.toNat ≠ z.toNat := Nat.ne_of_lt hxz
            simp [lexLe, hne, hxz]
          · simp only [lexLe, hyz, if_neg, if_false] at h2
            have hlt2 : y.toNat < z.toNat := by simpa using h2
            have hxz : x.toNat < z.toNat := Nat.lt_trans hlt1 hlt2
            have hne : x.toNat ≠ z.toNat := Nat.ne_of_lt hxz
            simp [lexLe, hne, hxz]

theorem entryLE_trans (a b c : FileEntry) (h1 : entryLE a b = true) (h2 : entryLE b c = true) :
    entryLE a c = true := by
  unfold entryLE at *
  by_cases hab : groupRank a = groupRank b
  · by_cases hbc : groupRank b = groupRank c
    · have hac : groupRank a = groupRank c := hab.trans hbc
      simp only [hab, if_true, if_pos] at h1
      simp only [hbc, if_true, if_pos] at h2
      simp only [hac, if_true, if_pos]
      exact lexLe_trans _ _ _ h1 h2
    · simp only [hbc, if_neg, if_false] at h2
      have hlt : groupRank b < groupRank c := by simpa using h2
      have hac : groupRank a < groupRank c := hab ▸ hlt
      have hne : groupRank a ≠ groupRank c := Nat.ne_of_lt hac
      simp [hne, hac]
  · simp only [hab, if_neg, if_false] at h1
    have hlt1 : groupRank a < groupRank b := by simpa using h1
    by_cases hbc : groupRank b = groupRank c
    · have hac : groupRank a < groupRank c := hbc ▸ hlt1
      have hne : groupRank a ≠ groupRank c := Nat.ne_of_lt hac
      simp [hne, hac]
    · simp only [hbc, if_neg, if_false] at h2
      have hlt2 : groupRank b < groupRank c := by simpa using h2
      have hac : groupRank a < groupRank c := Nat.lt_trans hlt1 hlt2
      have hne : groupRank a ≠ groupRank c := Nat.ne_of_lt hac
      simp [hne, hac]

theorem entryLE_total (a b : FileEntry) : entryLE a b || entryLE b a := by
  unfold entryLE
  by_cases hab : groupRank a = groupRank b
  · simp only [hab, if_true, if_pos]
    rcases lexLe_total (lowerStr a.name).data (lowerStr b.name).data with h | h
    · simp [h, hab]
    · simp [h, hab]
  · have hba : groupRank b ≠ groupRank a := fun hh => hab hh.symm
    rcases Nat.lt_or_ge (groupRank a) (groupRank b) with hlt | hge
    · simp [hab, hlt]
    · have hlt : groupRank b < groupRank a := lt_of_le_of_ne hge hba
      simp [hab, hba, hlt]

theorem groupRank_eq_iff (a b : FileEntry) :
    groupRank a = groupRank b ↔ a.isDirectory = b.isDirectory := by
  unfold groupRank
  cases ha : a.isDirectory <;> cases hb : b.isDirectory <;> simp

theorem entryLE_imp (a b : FileEntry) (h : entryLE a b = true) :
    (a.isDirectory = true ∧ b.isDirectory = false) ∨
    (a.isDirectory = b.isDirectory ∧ lexLe (lowerStr a.name).data (lowerStr b.name).data = true) := by
  unfold entryLE at h
  by_cases hr : groupRank a = groupRank b
  · right
    refine ⟨(groupRank_eq_iff a b).1 hr, ?_⟩
    simpa [hr] using h
  · left
    have hlt : groupRank a < groupRank b := by simpa [hr] using h
    unfold groupRank at hlt
    cases ha : a.isDirectory <;> cases hb : b.isDirectory <;>
      simp [ha, hb] at hlt ⊢

/-- C5: for every directory listing, a successful `scan` returns all directory
entries before all file entries, within each group entries are in ascending
case-insensitive name order, and the output is a permutation of the collected
entries (nothing is added or dropped by the sort; the function is
deterministic by construction). -/
theorem scan_sorted_dirs_first (parent : FsPath) (sh : Bool)
    (listing : Except IoErr (List (Except IoErr RawEntry))) (entries : List FileEntry)
    (h : scanWithHidden parent sh listing = .ok entries) :
    entries.Pairwise (fun a b =>
      (a.isDirectory = true ∧ b.isDirectory = false) ∨
      (a.isDirectory = b.isDirectory ∧
        lexLe (lowerStr a.name).data (lowerStr b.name).data = true)) ∧
    ∃ items kept, listing = .ok items ∧ collectEntries parent sh items = .ok kept ∧
      entries.Perm kept := by
  cases listing with
  | error e => simp [scanWithHidden] at h
  | ok items =>
    cases hc : collectEntries parent sh items with
    | error e => simp [scanWithHidden, hc] at h
    | ok kept =>
      simp only [scanWithHidden, hc, Except.ok.injEq] at h
      have hent : entries = List.insertionSort entryRel kept := h.symm
      subst hent
      constructor
      · haveI : IsTotal FileEntry entryRel := ⟨fun a b => by
          have := entryLE_total a b
          rcases Bool.or_eq_true_iff.1 this with h1 | h1
          · exact Or.inl h1
          · exact Or.inr h1⟩
        haveI : IsTrans FileEntry entryRel := ⟨fun a b c h1 h2 => entryLE_trans a b c h1 h2⟩
        have hs := List.sorted_insertionSort entryRel kept
        exact hs.imp (fun {a b} hab => entryLE_imp a b hab)
      · exact ⟨items, kept, rfl, hc, List.perm_insertionSort entryRel kept⟩

theorem scan_sorted_dirs_first_witness :
    scanWithHidden [] false (.ok demoListing) = .ok demoSorted ∧
    demoSorted.Pairwise (fun a b =>
      (a.isDirectory = true ∧ b.isDirectory = false) ∨
      (a.isDirectory = b.isDirectory ∧
        lexLe (lowerStr a.name).data (lowerStr b.name).data = true)) :=
  ⟨by decide, (scan_sorted_dirs_first [] false (.ok demoListing) demoSorted (by decide)).1⟩

theorem collectEntries_bad (parent : FsPath) (sh : Bool) (items : List (Except IoErr RawEntry))
    (h : ∃ it ∈ items, badItem it = true) :
    ∃ e, collectEntries parent sh items = .error e := by
  induction items with
  | nil => rcases h with ⟨it, hmem, _⟩; exact absurd hmem (by simp)
  | cons it rest ih =>
    cases it with
    | error e => exact ⟨e, rfl⟩
    | ok ent =>
      cases hm : ent.meta with
      | error e =>
        refine ⟨e, ?_⟩
        simp [collectEntries, hm]
      | ok m =>
        have hrest : ∃ it ∈ rest, badItem it = true := by
          rcases h with ⟨it2, hmem, hbad⟩
          rcases List.mem_cons.1 hmem with heq | hmem2
          · subst heq; simp [badItem, hm] at hbad
          · exact ⟨it2, hmem2, hbad⟩
        rcases ih hrest with ⟨e, he⟩
        by_cases hh : (!sh && startsWithDot ent.name) = true
        · exact ⟨e, by simp [collectEntries, hm, hh, he]⟩
        · refine ⟨e, ?_⟩
          simp only [collectEntries, hm]
          rw [if_neg hh, he]

/-- C9: `scan` returns the `read_dir` error itself when listing the directory
fails, and any entry whose retrieval or metadata read fails aborts the whole
scan with an error — no partial entry list is returned. -/
theorem scan_io_error_aborts :
    (∀ (parent : FsPath) (sh : Bool) (e : IoErr),
      scanWithHidden parent sh (.error e) = .error e) ∧
    (∀ (parent : FsPath) (sh : Bool) (items : List (Except IoErr RawEntry)),
      (∃ it ∈ items, badItem it = true) →
      ∃ e, scanWithHidden parent sh (.ok items) = .error e) := by
  constructor
  · intro parent sh e; rfl
  · intro parent sh items h
    rcases collectEntries_bad parent sh items h with ⟨e, he⟩
    exact ⟨e, by simp [scanWithHidden, he]⟩

theorem scan_io_error_aborts_witness :
    scanWithHidden ["home"] true (.error "permission denied") = .error "permission denied" ∧
    ∃ e, scanWithHidden [] false
      (.ok [Except.ok ⟨"x", Except.error "metadata failed"⟩]) = .error e :=
  ⟨scan_io_error_aborts.1 ["home"] true "permission denied",
   scan_io_error_aborts.2 [] false _ ⟨Except.ok ⟨"x", Except.error "metadata failed"⟩,
     by decide, by decide⟩⟩

/-! ## Theorems: search bounds (C3) -/

theorem matchStep_count_ge (q name : String) (st : SearchState) :
    st.count ≤ (matchStep q name st).count := by
  unfold matchStep; split <;> simp

theorem matchStep_len_ge (q name : String) (st : SearchState) :
    st.results.length ≤ (matchStep q name st).results.length := by
  unfold matchStep; split <;> simp

theorem matchStep_len_le (q name : String) (st : SearchState) :
    (matchStep q name st).results.length ≤ st.results.length + 1 := by
  unfold matchStep; split <;> simp

theorem searchEntries_replicate_file (path : FsPath) (n : Nat) (st : SearchState) :
    searchEntries "a" false path (List.replicate n (FsTree.file "a")) st =
      ⟨st.results ++ List.replicate n "a", st.count + n⟩ := by
  induction n generalizing st with
  | zero => simp [searchEntries]
  | succ k ih =>
    rw [List.replicate_succ, searchEntries]
    have hhid : (!false && startsWithDot (FsTree.file "a").name) = false := by decide
    rw [hhid]
    have hm : matchStep "a" (FsTree.file "a").name st =
        ⟨st.results ++ ["a"], st.count + 1⟩ := by
      unfold matchStep
      rw [if_pos (by decide)]
      simp [FsTree.name]
    simp only [Bool.false_eq_true, if_false, hm, ih]
    simp [List.replicate_succ, List.append_assoc]
    omega

theorem search_results_bounded_aux (q : String) (sh : Bool) :
    ∀ (n : Nat) (path : FsPath) (l : List FsTree) (st : SearchState), sizeOf l ≤ n →
      (searchEntries q sh path l st).results.length ≤ st.results.length + nodeCount l := by
  intro n
  induction n with
  | zero =>
    intro path l st hl
    cases l with
    | nil => simp [searchEntries, nodeCount]
    | cons t rest => simp at hl
  | succ m ih =>
    intro path l st hl
    cases l with
    | nil => simp [searchEntries, nodeCount]
    | cons t rest =>
      have hrest : sizeOf rest ≤ m := by
        have ht : 1 ≤ sizeOf t := by cases t <;> simp_arith
        simp at hl; omega
      rw [searchEntries]
      by_cases hh : (!sh && startsWithDot t.name) = true
      · rw [if_pos hh]
        have h1 := ih path rest st hrest
        have h2 : nodeCount rest ≤ nodeCount (t :: rest) := by
          cases t <;> simp [nodeCount]
        omega
      · rw [if_neg hh]
        cases t with
        | file nm =>
          have h1 := ih path rest (matchStep q (FsTree.file nm).name st) hrest
          have h2 := matchStep_len_le q (FsTree.file nm).name st
          simp only [nodeCount]
          omega
        | dir nm cs =>
          have hcs : sizeOf cs ≤ m := by simp at hl; omega
          have h2 := matchStep_len_le q (FsTree.dir nm cs).name st
          have hbound : ∀ st2 : SearchState,
              (st2 = matchStep q (FsTree.dir nm cs).name st ∨
               st2 = searchEntries q sh (path ++ [nm]) cs
                 (matchStep q (FsTree.dir nm cs).name st)) →
              st2.results.length ≤
                (matchStep q (FsTree.dir nm cs).name st).results.length + nodeCount cs := by
            intro st2 hst2
            rcases hst2 with h | h
            · subst h; omega
            · subst h; exact ih (path ++ [nm]) cs _ hcs
          dsimp only
          split_ifs with hskip hcnt hlen
          · have h1 := ih path rest (matchStep q (FsTree.dir nm cs).name st) hrest
            have h3 := hbound _ (Or.inl rfl)
            simp only [nodeCount]
            omega
          · have h1 := ih path rest (matchStep q (FsTree.dir nm cs).name st) hrest
            have h3 := hbound _ (Or.inl rfl)
            simp only [nodeCount]
            omega
          · have h1 := ih path rest (matchStep q (FsTree.dir nm cs).name st) hrest
            have h3 := hbound _ (Or.inl rfl)
            simp only [nodeCount]
            omega
          · have h1 := ih path rest (searchEntries q sh (path ++ [nm]) cs
              (matchStep q (FsTree.dir nm cs).name st)) hrest
            have h3 := hbound _ (Or.inr rfl)
            simp only [nodeCount]
            omega

/-- C3 counterexample: the 5000-bounds of `search_recursive` are only checked
at entry to a directory, never inside the entry loop, so a flat directory of
10,000 matching filenames yields all 10,000 results — more than the claimed
5000 cap. -/
theorem search_bound_counterexample :
    ¬ (searchRun "a" false ["root"]
        (List.replicate 10000 (FsTree.file "a"))).results.length ≤ 5000 := by
  have h := searchEntries_replicate_file ["root"] 10000 ⟨[], 0⟩
  have hrun : searchRun "a" false ["root"] (List.replicate 10000 (FsTree.file "a")) =
      ⟨List.replicate 10000 "a", 10000⟩ := by
    unfold searchRun
    rw [if_neg (by decide), if_neg (by decide), h]
    rw [List.nil_append]
  rw [hrun]
  intro hle
  rw [List.length_replicate] at hle
  omega

/-- C3 amended: search always terminates (it is a total function of the finite
input tree) and its result count is bounded by the number of tree nodes; the
5000-match and 5000-result bounds are enforced only at entry to each directory:
a subdirectory's entries are not processed once more than 5000 matches have
accumulated, but matches inside an already-entered directory are accumulated
without re-checking, so the total may exceed 5000. -/
theorem search_bound_guarded :
    (∀ (q : String) (sh : Bool) (path : FsPath) (nm : String) (cs rest : List FsTree)
        (st : SearchState), (!sh && startsWithDot nm) = false → 5000 < st.count →
      searchEntries q sh path (FsTree.dir nm cs :: rest) st =
        searchEntries q sh path rest (matchStep q nm st)) ∧
    (∀ (q : String) (sh : Bool) (path : FsPath) (nm : String) (cs rest : List FsTree)
        (st : SearchState), (!sh && startsWithDot nm) = false → 5000 < st.results.length →
      searchEntries q sh path (FsTree.dir nm cs :: rest) st =
        searchEntries q sh path rest (matchStep q nm st)) ∧
    (∀ (q : String) (sh : Bool) (path : FsPath) (l : List FsTree) (st : SearchState),
      (searchEntries q sh path l st).results.length ≤ st.results.length + nodeCount l) := by
  refine ⟨?_, ?_, ?_⟩
  · intro q sh path nm cs rest st hh hcnt
    rw [searchEntries]
    rw [if_neg (by simp [FsTree.name, hh])]
    dsimp only
    simp only [FsTree.name]
    have h1 : (matchStep q nm st).count > 5000 :=
      lt_of_lt_of_le hcnt (matchStep_count_ge q nm st)
    by_cases hskip : (skipDirs.any fun d => List.isPrefixOf d (path ++ [nm])) = true
    · rw [if_pos hskip]
    · rw [if_neg hskip, if_pos h1]
  · intro q sh path nm cs rest st hh hlen
    rw [searchEntries]
    rw [if_neg (by simp [FsTree.name, hh])]
    dsimp only
    simp only [FsTree.name]
    have h1 : (matchStep q nm st).results.length > 5000 :=
      lt_of_lt_of_le hlen (matchStep_len_ge q nm st)
    by_cases hskip : (skipDirs.any fun d => List.isPrefixOf d (path ++ [nm])) = true
    · rw [if_pos hskip]
    · rw [if_neg hskip]
      by_cases hc : (matchStep q nm st).count > 5000
      · rw [if_pos hc]
      · rw [if_neg hc, if_pos h1]
  · intro q sh path l st
    exact search_results_bounded_aux q sh (sizeOf l) path l st le_rfl

theorem search_bound_guarded_witness :
    searchEntries "a" false [] [FsTree.dir "d" [FsTree.file "a"]] ⟨[], 5001⟩ =
      searchEntries "a" false [] [] (matchStep "a" "d" ⟨[], 5001⟩) ∧
    (searchEntries "a" false ["r"] [FsTree.file "a"] ⟨[], 0⟩).results.length ≤
      0 + nodeCount [FsTree.file "a"] :=
  ⟨search_bound_guarded.1 "a" false [] "d" [FsTree.file "a"] [] ⟨[], 5001⟩
      (by decide) (by decide),
   search_bound_guarded.2.2 "a" false ["r"] [FsTree.file "a"] ⟨[], 0⟩⟩

/-! ## Theorems: collision-avoidance naming (C4) -/

theorem digitsVal_append_digit (xs : List Nat) (d : Nat) :
    digitsVal (xs ++ [d]) = digitsVal xs * 10 + d := by
  unfold digitsVal
  rw [List.foldl_append]
  rfl

theorem natDigitsAux_val : ∀ (fuel n : Nat), n < fuel →
    digitsVal (natDigitsAux fuel n) = n := by
  intro fuel
  induction fuel with
  | zero => intro n h; omega
  | succ m ih =>
    intro n h
    rw [natDigitsAux]
    by_cases h10 : n < 10
    · rw [if_pos h10]
      simp [digitsVal]
    · rw [if_neg h10]
      have hdiv : n / 10 < n := Nat.div_lt_self (by omega) (by omega)
      rw [digitsVal_append_digit, ih (n / 10) (by omega)]
      omega

theorem natDigits_val (n : Nat) : digitsVal (natDigits n) = n :=
  natDigitsAux_val (n + 1) n (Nat.lt_succ_self n)

theorem natDigits_inj {a b : Nat} (h : natDigits a = natDigits b) : a = b := by
  have hv := congrArg digitsVal h
  rwa [natDigits_val, natDigits_val] at hv

theorem natDigitsAux_lt_ten : ∀ (fuel n : Nat), ∀ d ∈ natDigitsAux fuel n, d < 10 := by
  intro fuel
  induction fuel with
  | zero => intro n d hd; simp [natDigitsAux] at hd
  | succ m ih =>
    intro n d hd
    rw [natDigitsAux] at hd
    by_cases h10 : n < 10
    · rw [if_pos h10] at hd
      simp at hd
      omega
    · rw [if_neg h10] at hd
      rcases List.mem_append.1 hd with h1 | h1
      · exact ih (n / 10) d h1
      · simp at h1
        omega

theorem digitChar_inj_lt : ∀ d1, d1 < 10 → ∀ d2, d2 < 10 →
    digitChar d1 = digitChar d2 → d1 = d2 := by decide

theorem map_digitChar_inj : ∀ (xs ys : List Nat), (∀ d ∈ xs, d < 10) →
    (∀ d ∈ ys, d < 10) → xs.map digitChar = ys.map digitChar → xs = ys := by
  intro xs
  induction xs with
  | nil => intro ys _ _ h; cases ys with
    | nil => rfl
    | cons y t => simp at h
  | cons x t ih =>
    intro ys hx hy h
    cases ys with
    | nil => simp at h
    | cons y t2 =>
      simp only [List.map_cons, List.cons.injEq] at h
      have hx0 : x < 10 := hx x (by simp)
      have hy0 : y < 10 := hy y (by simp)
      have hxy : x = y := digitChar_inj_lt x hx0 y hy0 h.1
      have ht : t = t2 := ih t2 (fun d hd => hx d (by simp [hd]))
        (fun d hd => hy d (by simp [hd])) h.2
      rw [hxy, ht]

theorem natStr_inj {a b : Nat} (h : natStr a = natStr b) : a = b := by
  have hd : ((natDigits a).map digitChar) = ((natDigits b).map digitChar) :=
    congrArg String.data h
  exact natDigits_inj (map_digitChar_inj _ _
    (natDigitsAux_lt_ten _ _) (natDigitsAux_lt_ten _ _) hd)

theorem strData_append (s t : String) : (s ++ t).data = s.data ++ t.data := rfl

theorem mkConflictName_inj (stem ext : String) :
    Function.Injective (fun n => mkConflictName stem ext n) := by
  intro a b h
  simp only [mkConflictName] at h
  have hd := congrArg String.data h
  simp only [strData_append, List.append_assoc] at hd
  have h1 := List.append_cancel_left hd
  have h2 := List.append_cancel_left h1
  rw [← List.append_assoc, ← List.append_assoc] at h2
  have h3 := List.append_cancel_right h2
  have h4 := List.append_cancel_right h3
  exact natStr_inj (by
    have : (natStr a).data = (natStr b).data := h4
    exact congrArg String.mk this)

theorem exists_free_name (stem ext : String) (existing : List String) :
    ∃ k, k < existing.length + 1 ∧ mkConflictName stem ext (1 + k) ∉ existing := by
  by_contra hcon
  push_neg at hcon
  have hinj : Function.Injective (fun k => mkConflictName stem ext (1 + k)) := by
    intro a b h
    have := mkConflictName_inj stem ext h
    omega
  have hnodup : ((List.range (existing.length + 1)).map
      (fun k => mkConflictName stem ext (1 + k))).Nodup :=
    (List.nodup_range _).map hinj
  have hsub : (List.range (existing.length + 1)).map
      (fun k => mkConflictName stem ext (1 + k)) ⊆ existing := by
    intro x hx
    rcases List.mem_map.1 hx with ⟨k, hk, hke⟩
    rw [← hke]
    exact hcon k (List.mem_range.1 hk)
  have hle := (List.subperm_of_subset hnodup hsub).length_le
  simp at hle

theorem renameLoop_spec (stem ext : String) (existing : List String) :
    ∀ (fuel n : Nat), (∃ k, k < fuel ∧ mkConflictName stem ext (n + k) ∉ existing) →
      ∃ k, renameLoop stem ext existing fuel n = mkConflictName stem ext (n + k) ∧
        mkConflictName stem ext (n + k) ∉ existing ∧
        ∀ j, j < k → mkConflictName stem ext (n + j) ∈ existing := by
  intro fuel
  induction fuel with
  | zero => intro n h; rcases h with ⟨k, hk, _⟩; omega
  | succ m ih =>
    intro n h
    rw [renameLoop]
    by_cases hmem : mkConflictName stem ext n ∈ existing
    · rw [if_pos hmem]
      have hex : ∃ k, k < m ∧ mkConflictName stem ext (n + 1 + k) ∉ existing := by
        rcases h with ⟨k, hk, hfree⟩
        have hk0 : k ≠ 0 := by
          intro h0
          rw [h0, Nat.add_zero] at hfree
          exact hfree hmem
        refine ⟨k - 1, by omega, ?_⟩
        rwa [show n + 1 + (k - 1) = n + k by omega]
      rcases ih (n + 1) hex with ⟨k, heq, hfree, hmin⟩
      refine ⟨k + 1, ?_, ?_, ?_⟩
      · rw [heq, show n + 1 + k = n + (k + 1) by omega]
      · rwa [show n + (k + 1) = n + 1 + k by omega]
      · intro j hj
        cases j with
        | zero => simpa using hmem
        | succ i =>
          have := hmin i (by omega)
          rwa [show n + 1 + i = n + (i + 1) by omega] at this
    · rw [if_neg hmem]
      exact ⟨0, by rw [Nat.add_zero], by rwa [Nat.add_zero], fun j hj => by omega⟩

/-- C4: the autorename rule used by clipboard-paste and drag-drop-paste: the
resolved destination name never collides with an existing name; an original
name that is free is used unchanged; on collision the result is
`"{stem} ({n}){.ext}"` for some `n ≥ 1` such that every earlier counter value
produced an existing name (so the first free candidate, for increasing `n`
starting at 1, is used); concretely, dropping `photo.jpg` into a directory
containing `photo.jpg` and `photo (1).jpg` yields `photo (2).jpg`. -/
theorem autorename_first_free (existing : List String) (name : String) :
    resolveName existing name ∉ existing ∧
    (name ∉ existing → resolveName existing name = name) ∧
    (name ∈ existing → ∃ n, 1 ≤ n ∧
      resolveName existing name = mkConflictName (fileStem name) (extWithDot name) n ∧
      mkConflictName (fileStem name) (extWithDot name) n ∉ existing ∧
      (∀ m, 1 ≤ m → m < n → mkConflictName (fileStem name) (extWithDot name) m ∈ existing)) ∧
    resolveName ["photo.jpg", "photo (1).jpg"] "photo.jpg" = "photo (2).jpg" := by
  have hloop : name ∈ existing → ∃ n, 1 ≤ n ∧
      resolveName existing name = mkConflictName (fileStem name) (extWithDot name) n ∧
      mkConflictName (fileStem name) (extWithDot name) n ∉ existing ∧
      (∀ m, 1 ≤ m → m < n → mkConflictName (fileStem name) (extWithDot name) m ∈ existing) := by
    intro hmem
    have hex : ∃ k, k < existing.length + 1 ∧
        mkConflictName (fileStem name) (extWithDot name) (1 + k) ∉ existing :=
      exists_free_name (fileStem name) (extWithDot name) existing
    rcases renameLoop_spec (fileStem name) (extWithDot name) existing
      (existing.length + 1) 1 hex with ⟨k, heq, hfree, hmin⟩
    refine ⟨1 + k, by omega, ?_, hfree, ?_⟩
    · rw [resolveName, if_pos hmem, heq]
    · intro m h1 h2
      have := hmin (m - 1) (by omega)
      rwa [show 1 + (m - 1) = m by omega] at this
  refine ⟨?_, ?_, hloop, by decide⟩
  · by_cases hmem : name ∈ existing
    · rcases hloop hmem with ⟨n, _, heq, hfree, _⟩
      rw [heq]
      exact hfree
    · rw [resolveName, if_neg hmem]
      exact hmem
  · intro hmem
    rw [resolveName, if_neg hmem]

theorem autorename_first_free_witness :
    resolveName ["photo.jpg", "photo (1).jpg"] "photo.jpg" ∉ ["photo.jpg", "photo (1).jpg"] ∧
    (∃ n, 1 ≤ n ∧
      resolveName ["photo.jpg", "photo (1).jpg"] "photo.jpg" =
        mkConflictName (fileStem "photo.jpg") (extWithDot "photo.jpg") n ∧
      mkConflictName (fileStem "photo.jpg") (extWithDot "photo.jpg") n ∉
        ["photo.jpg", "photo (1).jpg"] ∧
      (∀ m, 1 ≤ m → m < n → mkConflictName (fileStem "photo.jpg") (extWithDot "photo.jpg") m ∈
        ["photo.jpg", "photo (1).jpg"])) ∧
    resolveName ["photo.jpg", "photo (1).jpg"] "photo.jpg" = "photo (2).jpg" :=
  ⟨(autorename_first_free ["photo.jpg", "photo (1).jpg"] "photo.jpg").1,
   (autorename_first_free ["photo.jpg", "photo (1).jpg"] "photo.jpg").2.2.1 (by decide),
   (autorename_first_free ["photo.jpg", "photo (1).jpg"] "photo.jpg").2.2.2⟩

/-! ## Theorems: scan-generation gating (C2) -/

theorem loadRun_append (s : LoadCtl) (t1 t2 : List LoadEvent) :
    loadRun s (t1 ++ t2) =
      ((loadRun (loadRun s t1).1 t2).1,
        (loadRun s t1).2 ++ (loadRun (loadRun s t1).1 t2).2) := by
  induction t1 generalizing s with
  | nil => simp [loadRun]
  | cons e rest ih =>
    simp only [List.cons_append, loadRun, List.append_eq]
    rw [ih]
    simp [List.append_assoc]

theorem loadRun_gen (s : LoadCtl) (t : List LoadEvent) :
    (loadRun s t).1.gen = s.gen + countLoads t := by
  induction t generalizing s with
  | nil => simp [loadRun, countLoads]
  | cons e rest ih =>
    cases e with
    | load =>
      simp only [loadRun, loadStep, countLoads]
      rw [ih]
      simp
      omega
    | complete g r =>
      simp only [loadRun, loadStep, countLoads]
      by_cases hg : g = s.gen
      · rw [if_pos hg]
        cases r with
        | ok entries => rw [ih]
        | error e => rw [ih]
      · rw [if_neg hg]
        rw [ih]

theorem loadRun_applied_le (g : Nat) (s : LoadCtl) (t : List LoadEvent) :
    ((loadRun s t).2.count g) ≤ countCompletes g t := by
  induction t generalizing s with
  | nil => simp [loadRun, countCompletes]
  | cons e rest ih =>
    cases e with
    | load =>
      simp only [loadRun, loadStep, countCompletes]
      simpa using ih _
    | complete g2 r =>
      simp only [loadRun, loadStep, countCompletes]
      by_cases hg : g2 = s.gen
      · rw [if_pos hg]
        cases r with
        | ok entries =>
          simp only [List.singleton_append, List.count_cons]
          have := ih { s with view := s.view ++ entries }
          by_cases hgg : g2 = g
          · simp [hgg]
            omega
          · simp [hgg]
            omega
        | error e =>
          simpa using ih _
      · rw [if_neg hg]
        cases r with
        | ok entries =>
          have := ih s
          simp only [List.nil_append]
          by_cases hgg : g2 = g
          · simp [hgg]; omega
          · simp [hgg]; omega
        | error e =>
          simpa using ih _

/-- C2: the generation gate of `load_directory`.  (a) The controller's
generation equals the number of `load_directory` calls, so the tag captured at
dispatch identifies its call.  (b) A successfully completed scan is applied to
the view if and only if its captured generation equals the controller's
current generation when the result arrives (applied = its tag is appended to
the applied-list; otherwise both the applied-list and the whole controller
state are unchanged, i.e. the stale result is discarded silently).  (c) From
the initial state, a result whose tag is older than the number of loads
performed so far is never applied and leaves the state unchanged.  (d) Each
dispatched generation is applied at most as often as it completes — with the
real system's single completion per scan, at most once, so at most one scan's
results (the current generation's) are ever applied per load. -/
theorem load_generation_gate :
    (∀ (s : LoadCtl) (t : List LoadEvent), (loadRun s t).1.gen = s.gen + countLoads t) ∧
    (∀ (s : LoadCtl) (t1 : List LoadEvent) (g : Nat) (entries : List FileEntry),
      (loadRun s (t1 ++ [.complete g (.ok entries)])).2 =
        (loadRun s t1).2 ++ (if g = (loadRun s t1).1.gen then [g] else []) ∧
      (g ≠ (loadRun s t1).1.gen →
        (loadRun s (t1 ++ [.complete g (.ok entries)])).1 = (loadRun s t1).1)) ∧
    (∀ (t1 : List LoadEvent) (g : Nat) (entries : List FileEntry),
      g < countLoads t1 →
      (loadRun loadInit (t1 ++ [.complete g (.ok entries)])).2 = (loadRun loadInit t1).2 ∧
      (loadRun loadInit (t1 ++ [.complete g (.ok entries)])).1 = (loadRun loadInit t1).1) ∧
    (∀ (g : Nat) (s : LoadCtl) (t : List LoadEvent),
      ((loadRun s t).2.count g) ≤ countCompletes g t) := by
  refine ⟨loadRun_gen, ?_, ?_, fun g s t => loadRun_applied_le g s t⟩
  · intro s t1 g entries
    rw [loadRun_append]
    constructor
    · simp only [loadRun, loadStep]
      by_cases hg : g = (loadRun s t1).1.gen
      · rw [if_pos hg, if_pos hg]
        simp
      · rw [if_neg hg, if_neg hg]
        simp
    · intro hg
      simp only [loadRun, loadStep]
      rw [if_neg hg]
  · intro t1 g entries hstale
    have hgen : (loadRun loadInit t1).1.gen = countLoads t1 := by
      rw [loadRun_gen]
      simp [loadInit]
    have hne : g ≠ (loadRun loadInit t1).1.gen := by
      rw [hgen]; omega
    rw [loadRun_append]
    constructor
    · simp only [loadRun, loadStep]
      rw [if_neg hne]
      simp
    · simp only [loadRun, loadStep]
      rw [if_neg hne]

theorem load_generation_gate_witness :
    (loadRun loadInit [LoadEvent.load, LoadEvent.load,
        LoadEvent.complete 1 (.ok demoSorted)]).2 =
      (loadRun loadInit [LoadEvent.load, LoadEvent.load]).2 ∧
    (loadRun loadInit [LoadEvent.load, LoadEvent.load,
        LoadEvent.complete 1 (.ok demoSorted)]).1 =
      (loadRun loadInit [LoadEvent.load, LoadEvent.load]).1 :=
  load_generation_gate.2.2.1 [LoadEvent.load, LoadEvent.load] 1 demoSorted (by decide)

/-! ## Theorems: progress reporting (C6, C7) -/

/-- C6 (exhibit of the code bug): moving the 100-byte file `a` to `b` through
the successful rename fast path performs exactly one instantaneous progress
update, incrementing the file count — but adds 0 bytes instead of the file's
size, because the `source.is_file()` guard stats the source path after the
rename has already moved it away. -/
theorem move_fast_path_bytes_bug :
    (moveFileWithProgress [(["a"], FNode.file 100)] ["a"] ["b"] "a" true).2 =
      [ProgressUpdate.renameDone false 0] ∧
    applyUpdates ⟨"", 0, 100, 0, 1⟩
      (moveFileWithProgress [(["a"], FNode.file 100)] ["a"] ["b"] "a" true).2 =
      ⟨"", 0, 100, 1, 1⟩ := by
  constructor
  · rfl
  · rfl

theorem applyUpdate_mono (p : ProgressInfo) (u : ProgressUpdate) :
    p.bytesCopied ≤ (applyUpdate p u).bytesCopied ∧
    p.filesCopied ≤ (applyUpdate p u).filesCopied ∧
    (applyUpdate p u).totalBytes = p.totalBytes ∧
    (applyUpdate p u).totalFiles = p.totalFiles := by
  cases u with
  | chunk k name =>
    dsimp only [applyUpdate]
    split <;> simp
  | fileDone => simp [applyUpdate]
  | setCurrent name => simp [applyUpdate]
  | renameDone isF size =>
    dsimp only [applyUpdate]
    split <;> simp

theorem applyUpdates_append (p : ProgressInfo) (us1 us2 : List ProgressUpdate) :
    applyUpdates p (us1 ++ us2) = applyUpdates (applyUpdates p us1) us2 := by
  simp [applyUpdates, List.foldl_append]

theorem applyUpdates_mono (us : List ProgressUpdate) :
    ∀ p : ProgressInfo,
      p.bytesCopied ≤ (applyUpdates p us).bytesCopied ∧
      p.filesCopied ≤ (applyUpdates p us).filesCopied := by
  induction us with
  | nil => intro p; simp [applyUpdates]
  | cons u rest ih =>
    intro p
    have h1 := applyUpdate_mono p u
    have h2 := ih (applyUpdate p u)
    have he : applyUpdates p (u :: rest) = applyUpdates (applyUpdate p u) rest := rfl
    rw [he]
    exact ⟨le_trans h1.1 h2.1, le_trans h1.2.1 h2.2⟩

theorem applyUpdates_files (us : List ProgressUpdate) :
    ∀ p : ProgressInfo,
      (applyUpdates p us).filesCopied = p.filesCopied + countIncr us := by
  induction us with
  | nil => intro p; simp [applyUpdates, countIncr]
  | cons u rest ih =>
    intro p
    have he : applyUpdates p (u :: rest) = applyUpdates (applyUpdate p u) rest := rfl
    rw [he, ih]
    cases u with
    | chunk k name =>
      dsimp only [applyUpdate]
      split <;> simp [countIncr, List.countP_cons]
    | fileDone => simp [applyUpdate, countIncr, List.countP_cons]; omega
    | setCurrent name => simp [applyUpdate, countIncr, List.countP_cons]
    | renameDone isF size =>
      dsimp only [applyUpdate]
      split <;> simp [countIncr, List.countP_cons] <;> omega

theorem countIncr_copySingle (name : String) (size : Nat) :
    countIncr (copySingleTrace name size) = 1 := by
  unfold copySingleTrace countIncr
  rw [List.countP_append]
  have hz : List.countP (fun u => match u with
      | .fileDone => true
      | .renameDone _ _ => true
      | _ => false) ((chunkSizes size).map fun k => ProgressUpdate.chunk k name) = 0 := by
    rw [List.countP_eq_zero]
    intro u hu
    rcases List.mem_map.1 hu with ⟨k, _, hk⟩
    rw [← hk]
    simp
  rw [hz]
  rfl

theorem countIncr_append (us1 us2 : List ProgressUpdate) :
    countIncr (us1 ++ us2) = countIncr us1 + countIncr us2 := by
  unfold countIncr
  rw [List.countP_append]

theorem countIncr_copyDirTrace_aux :
    ∀ (n : Nat) (l : List (String × FNode)), sizeOf l ≤ n →
      countIncr (copyDirTrace l) = (calcSizeRec (.dir l)).2 := by
  intro n
  induction n with
  | zero =>
    intro l hl
    cases l with
    | nil => simp [copyDirTrace, countIncr, calcSizeRec]
    | cons e rest => simp at hl
  | succ m ih =>
    intro l hl
    match l with
    | [] => simp [copyDirTrace, countIncr, calcSizeRec]
    | (nm, FNode.file size) :: rest =>
      have hrest : sizeOf rest ≤ m := by simp at hl; omega
      rw [copyDirTrace]
      rw [show countIncr (ProgressUpdate.setCurrent nm ::
          (copySingleTrace nm size ++ copyDirTrace rest)) =
        countIncr (copySingleTrace nm size ++ copyDirTrace rest) by
          unfold countIncr; rw [List.countP_cons]; simp]
      rw [countIncr_append, countIncr_copySingle, ih rest hrest]
      rw [calcSizeRec]
      simp [calcSizeRec]
    | (nm, FNode.dir cs) :: rest =>
      have hrest : sizeOf rest ≤ m := by simp at hl; omega
      have hcs : sizeOf cs ≤ m := by simp at hl; omega
      rw [copyDirTrace, countIncr_append, ih cs hcs, ih rest hrest]
      rw [calcSizeRec]

theorem countIncr_copyTrace (name : String) (nd : FNode) :
    countIncr (copyTrace name nd) = (calcSizeRec nd).2 := by
  cases nd with
  | file size => simp [copyTrace, countIncr_copySingle, calcSizeRec]
  | dir cs =>
    rw [copyTrace]
    exact countIncr_copyDirTrace_aux (sizeOf cs) cs le_rfl

theorem countIncr_pasteCopyTrace (srcs : List (String × FNode)) :
    countIncr (pasteCopyTrace srcs) = (calcTotal srcs).2 := by
  induction srcs with
  | nil => simp [pasteCopyTrace, countIncr, calcTotal]
  | cons e rest ih =>
    match e with
    | (nm, nd) =>
      rw [pasteCopyTrace, countIncr_append, countIncr_copyTrace, ih, calcTotal]

/-- C7 amended: every locked update of the shared `ProgressInfo` only
increases `bytes_copied` and `files_copied` and never changes the totals, so
values sampled by the UI poller are non-decreasing over time; and for a
Copy-mode paste the final `files_copied` equals `total_files` as computed up
front by `calculate_total_size` (hence never exceeds it).  The Cut-mode
rename fast path instead counts one file per renamed path regardless of its
contents, which can exceed `total_files` (see the counterexample of an empty
directory). -/
theorem progress_monotone_amended :
    (∀ (p : ProgressInfo) (u : ProgressUpdate),
      p.bytesCopied ≤ (applyUpdate p u).bytesCopied ∧
      p.filesCopied ≤ (applyUpdate p u).filesCopied ∧
      (applyUpdate p u).totalBytes = p.totalBytes ∧
      (applyUpdate p u).totalFiles = p.totalFiles) ∧
    (∀ (p : ProgressInfo) (us1 us2 : List ProgressUpdate),
      (applyUpdates p us1).bytesCopied ≤ (applyUpdates p (us1 ++ us2)).bytesCopied ∧
      (applyUpdates p us1).filesCopied ≤ (applyUpdates p (us1 ++ us2)).filesCopied) ∧
    (∀ srcs : List (String × FNode),
      (applyUpdates (initProgress srcs) (pasteCopyTrace srcs)).filesCopied =
        (initProgress srcs).totalFiles) := by
  refine ⟨applyUpdate_mono, ?_, ?_⟩
  · intro p us1 us2
    rw [applyUpdates_append]
    exact applyUpdates_mono us2 (applyUpdates p us1)
  · intro srcs
    rw [applyUpdates_files, countIncr_pasteCopyTrace]
    simp [initProgress]

/-- C7 counterexample: cut-pasting a single empty directory through the
rename fast path.  `calculate_total_size` counts 0 files up front, but the
fast-path update sets `files_copied` to 1, exceeding `total_files`. -/
theorem progress_exceeds_total_counterexample :
    ¬ ((applyUpdates (initProgress [("d", FNode.dir [])])
        (moveFileWithProgress [(["d"], FNode.dir [])] ["d"] ["e"] "d" true).2).filesCopied ≤
      (initProgress [("d", FNode.dir [])]).totalFiles) := by
  intro hle
  have h1 : (initProgress [("d", FNode.dir [])]).totalFiles = 0 := by
    simp [initProgress, calcTotal, calcSizeRec]
  have h2 : (applyUpdates (initProgress [("d", FNode.dir [])])
      (moveFileWithProgress [(["d"], FNode.dir [])] ["d"] ["e"] "d" true).2).filesCopied =
      1 := rfl
  rw [h1, h2] at hle
  omega

/-! ## Theorems: clipboard state after paste (C8) -/

/-- C8 counterexample: a Cut-paste with an empty path list succeeds
(`Ok(())` through the early guard) yet leaves the mode at `Cut` instead of
resetting it to `None`. -/
theorem cut_paste_counterexample :
    clipPaste ⟨[], ClipboardMode.cut⟩ [] =
      .ok (⟨[], ClipboardMode.cut⟩, []) ∧
    ClipboardMode.cut ≠ ClipboardMode.none := by
  constructor
  · rfl
  · intro h
    cases h

/-- C8 amended: after a successful Cut-paste of a non-empty path list the
clipboard's paths are cleared and its mode is reset to `None`; a successful
Copy-paste leaves the clipboard (paths and mode) unchanged, so it is
repeatable.  (A Cut-paste of an empty path list is a no-op that leaves the
mode at `Cut`.) -/
theorem cut_paste_clears_amended (c : Clipboard) (destNames : List String)
    (c2 : Clipboard) (names2 : List String)
    (hok : clipPaste c destNames = .ok (c2, names2)) :
    (c.mode = ClipboardMode.cut → c.paths ≠ [] →
      c2.paths = [] ∧ c2.mode = ClipboardMode.none) ∧
    (c.mode = ClipboardMode.copy → c2 = c) := by
  unfold clipPaste at hok
  by_cases hguard : c.mode = ClipboardMode.none ∨ c.paths = []
  · rw [if_pos hguard] at hok
    have hc2 : c2 = c := by
      have := hok
      simp only [Except.ok.injEq, Prod.mk.injEq] at this
      exact this.1.symm
    constructor
    · intro hcut hpaths
      rcases hguard with hnone | hempty
      · rw [hcut] at hnone
        cases hnone
      · exact absurd hempty hpaths
    · intro _
      exact hc2
  · rw [if_neg hguard] at hok
    cases hl : clipPasteLoop c.mode c.paths destNames with
    | error e =>
      rw [hl] at hok
      cases hok
    | ok n2 =>
      rw [hl] at hok
      dsimp only at hok
      by_cases hcut : c.mode = ClipboardMode.cut
      · rw [if_pos hcut] at hok
        simp only [Except.ok.injEq, Prod.mk.injEq] at hok
        constructor
        · intro _ _
          rw [← hok.1]
          exact ⟨rfl, rfl⟩
        · intro hcopy
          rw [hcopy] at hcut
          cases hcut
      · rw [if_neg hcut] at hok
        simp only [Except.ok.injEq, Prod.mk.injEq] at hok
        constructor
        · intro hcut2 _
          exact absurd hcut2 hcut
        · intro _
          exact hok.1.symm

theorem cut_paste_clears_amended_witness :
    ∃ (c2 : Clipboard) (names2 : List String),
      clipPaste ⟨[["s", "a"]], ClipboardMode.cut⟩ [] = .ok (c2, names2) ∧
      c2.paths = [] ∧ c2.mode = ClipboardMode.none :=
  ⟨⟨[], ClipboardMode.none⟩, ["a"], by decide,
    (cut_paste_clears_amended ⟨[["s", "a"]], ClipboardMode.cut⟩ [] ⟨[], ClipboardMode.none⟩
      ["a"] (by decide)).1 rfl (by decide)⟩

/-! ## Theorems: paste worker cancellation protocol (C1) -/

theorem resolveConflicts_no_finished (dest : FsPath) (fs : List FsPath) :
    ∀ (res : List ConflictResolution) (dp : FsPath),
      countFinished (resolveConflicts dest fs dp res).1 = 0 := by
  intro res
  induction res with
  | nil =>
    intro dp
    rw [resolveConflicts.eq_def]
    dsimp only
    by_cases hmem : dp ∈ fs
    · rw [if_pos hmem]
      rfl
    · rw [if_neg hmem]
      rfl
  | cons r rest ih =>
    intro dp
    rw [resolveConflicts.eq_def]
    dsimp only
    by_cases hmem : dp ∈ fs
    · rw [if_pos hmem]
      cases r with
      | replace => rfl
      | cancel => rfl
      | rename newName =>
        dsimp only
        unfold countFinished at ih ⊢
        rw [List.countP_cons]
        simp [ih]
    · rw [if_neg hmem]
      rfl

theorem workerRun_one_finished (mode : ClipboardMode) (dest : FsPath) :
    ∀ (srcs fs : List FsPath) (res : List ConflictResolution),
      countFinished (workerRun mode dest srcs fs res).1 = 1 := by
  intro srcs
  induction srcs with
  | nil =>
    intro fs res
    rfl
  | cons src rest ih =>
    intro fs res
    rw [workerRun]
    cases hname : src.getLast? with
    | none => exact ih fs res
    | some name =>
      dsimp only
      cases hout : (resolveConflicts dest fs (dest ++ [name]) res).2.2 with
      | none =>
        dsimp only
        unfold countFinished
        rw [List.countP_append]
        have h0 := resolveConflicts_no_finished dest fs res (dest ++ [name])
        unfold countFinished at h0
        rw [h0]
        rfl
      | some dp =>
        dsimp only
        unfold countFinished
        rw [List.countP_append]
        have h0 := resolveConflicts_no_finished dest fs res (dest ++ [name])
        unfold countFinished at h0
        rw [h0]
        have h1 := ih (applyTransfer mode src dp fs) (resolveConflicts dest fs (dest ++ [name]) res).2.1
        unfold countFinished at h1
        rw [h1]

theorem workerRun_cancel_head (mode : ClipboardMode) (dest : FsPath)
    (fs : List FsPath) (res : List ConflictResolution)
    (src : FsPath) (post : List FsPath) (name : String)
    (hname : src.getLast? = some name)
    (hcancel : (resolveConflicts dest fs (dest ++ [name]) res).2.2 = none) :
    workerRun mode dest (src :: post) fs res =
      ((resolveConflicts dest fs (dest ++ [name]) res).1 ++ [.finished mode], []) := by
  rw [workerRun, hname]
  dsimp only
  rw [hcancel]

theorem workerRun_split (mode : ClipboardMode) (dest : FsPath) :
    ∀ (pre post fs res) (fs1 : List FsPath) (res1 : List ConflictResolution),
      workerState mode dest pre fs res = some (fs1, res1) →
      (workerRun mode dest (pre ++ post) fs res).2 =
        (workerRun mode dest pre fs res).2 ++ (workerRun mode dest post fs1 res1).2 := by
  intro pre
  induction pre with
  | nil =>
    intro post fs res fs1 res1 h
    simp only [workerState, Option.some.injEq, Prod.mk.injEq] at h
    rw [← h.1, ← h.2]
    simp [workerRun]
  | cons src rest ih =>
    intro post fs res fs1 res1 h
    rw [workerState] at h
    rw [List.cons_append, workerRun, workerRun]
    cases hname : src.getLast? with
    | none =>
      rw [hname] at h
      exact ih post fs res fs1 res1 h
    | some name =>
      rw [hname] at h
      dsimp only at h ⊢
      cases hout : (resolveConflicts dest fs (dest ++ [name]) res).2.2 with
      | none =>
        rw [hout] at h
        dsimp only at h
        cases h
      | some dp =>
        rw [hout] at h
        dsimp only at h
        dsimp only
        rw [ih post _ _ fs1 res1 h]
        simp [List.append_assoc]

/-- C1: if the worker reaches a source file whose conflict resolution ends in
`Cancel` (after a prefix of paths processed without cancellation), then the
whole paste transfers exactly the prefix's files — neither the cancelled file
nor any path after it is transferred, while already-transferred files remain —
and the event trace of that run contains exactly one `Finished`; moreover
every worker run, cancelled or not, emits exactly one `Finished` event. -/
theorem paste_cancel_aborts (mode : ClipboardMode) (dest : FsPath)
    (fs0 : List FsPath) (res0 : List ConflictResolution)
    (pre post : List FsPath) (src : FsPath) (name : String)
    (fs1 : List FsPath) (res1 : List ConflictResolution)
    (hpre : workerState mode dest pre fs0 res0 = some (fs1, res1))
    (hname : src.getLast? = some name)
    (hcancel : (resolveConflicts dest fs1 (dest ++ [name]) res1).2.2 = none) :
    (workerRun mode dest (pre ++ src :: post) fs0 res0).2 =
      (workerRun mode dest pre fs0 res0).2 ∧
    countFinished (workerRun mode dest (pre ++ src :: post) fs0 res0).1 = 1 ∧
    (∀ (srcs fs : List FsPath) (res : List ConflictResolution),
      countFinished (workerRun mode dest srcs fs res).1 = 1) := by
  refine ⟨?_, workerRun_one_finished mode dest _ fs0 res0,
    fun srcs fs res => workerRun_one_finished mode dest srcs fs res⟩
  rw [workerRun_split mode dest pre (src :: post) fs0 res0 fs1 res1 hpre]
  rw [workerRun_cancel_head mode dest fs1 res1 src post name hname hcancel]
  simp

theorem paste_cancel_aborts_witness :
    (workerRun ClipboardMode.copy ["d"] [["s", "a"], ["s", "b"], ["s", "c"]]
        [["d", "b"]] [ConflictResolution.cancel]).2 =
      (workerRun ClipboardMode.copy ["d"] [["s", "a"]]
        [["d", "b"]] [ConflictResolution.cancel]).2 ∧
    countFinished (workerRun ClipboardMode.copy ["d"] [["s", "a"], ["s", "b"], ["s", "c"]]
        [["d", "b"]] [ConflictResolution.cancel]).1 = 1 :=
  ⟨(paste_cancel_aborts ClipboardMode.copy ["d"] [["d", "b"]] [ConflictResolution.cancel]
      [["s", "a"]] [["s", "c"]] ["s", "b"] "b"
      [["d", "a"], ["d", "b"]] [ConflictResolution.cancel]
      (by decide) (by decide) (by decide)).1,
   (paste_cancel_aborts ClipboardMode.copy ["d"] [["d", "b"]] [ConflictResolution.cancel]
      [["s", "a"]] [["s", "c"]] ["s", "b"] "b"
      [["d", "a"], ["d", "b"]] [ConflictResolution.cancel]
      (by decide) (by decide) (by decide)).2.1⟩

/-! ## Theorems: drag-drop self-skip (C10) -/

/-- C10: the drag-drop worker copies exactly the dropped files that have a
file name and are not already at their would-be destination, in order: a file
dropped into the directory it already lives in is skipped entirely (no copy,
no autorenamed duplicate), while all other dropped files are still
processed. -/
theorem drop_skips_self (destDir : FsPath) (files : List FsPath) :
    ∀ names : List String,
      ((dropWorker destDir files names).1.map Prod.fst) =
        files.filter (fun f => dropProcessed destDir f) := by
  induction files with
  | nil => intro names; rfl
  | cons f rest ih =>
    intro names
    rw [dropWorker]
    cases hname : f.getLast? with
    | none =>
      have hp : dropProcessed destDir f = false := by
        unfold dropProcessed
        rw [hname]
      rw [List.filter_cons_of_neg (by rw [hp]; exact Bool.false_ne_true)]
      exact ih names
    | some fn =>
      dsimp only
      by_cases heq : f = destDir ++ [fn]
      · rw [if_pos heq]
        have hp : dropProcessed destDir f = false := by
          unfold dropProcessed
          rw [hname]
          simp [heq]
        rw [List.filter_cons_of_neg (by rw [hp]; exact Bool.false_ne_true)]
        exact ih names
      · rw [if_neg heq]
        have hp : dropProcessed destDir f = true := by
          unfold dropProcessed
          rw [hname]
          simp [heq]
        rw [List.filter_cons_of_pos (by rw [hp])]
        dsimp only [List.map_cons]
        rw [ih (names ++ [resolveName names fn])]
